import Mathlib

/-!
Shallow embedding of the copy/verify transfer engine of `src/imge.rs`
(the `imge` crate: block-wise image/drive copy with progress reporting,
post-write verification, and a byte-size formatter).

Modelling conventions:
* Machine integers (`u64`, `usize`, `isize`) are modelled as `Nat`; the
  only place signedness matters (`archive_read_data` returning a negative
  count on error) is modelled by a dedicated read-event constructor.
* `f64` arithmetic (`Progress::percents`, the one-decimal rendering in
  `humanize`) is modelled exactly: the quotient in `percents` as a
  rational number, and the `{:.1}` rendering in `humanize` as exact
  rounding of `m / 1024` (all values arising there are exactly
  representable in `f64`) to one decimal digit with ties to even, which
  is the rounding Rust's float formatting performs.
* I/O is modelled by environments: each `File::open` either succeeds or
  yields an OS error code, each read yields the next event of a list
  (a data chunk, or a read failure), each `write_all` consumes the next
  result of a list.  Exhausted lists behave as end-of-stream reads /
  successful writes.
* Every externally visible action (opens, reads, writes, progress
  updates, the final `finished` flip) is recorded in an event trace so
  that ordering claims ("before opening", "no further reads", "as the
  last steps") are statable.
-/

namespace Imge

/-- `BLOCK_SIZE` from `imge.rs`: the fixed 1 MiB transfer block. -/
def BLOCK_SIZE : Nat := 1024 * 1024

/-- The shared progress record (`struct Progress` in `imge.rs`). -/
structure Progress where
  size : Nat
  done : Nat
  secs : Nat
  finished : Bool
deriving Repr, DecidableEq

/-- `Progress::percents` from `imge.rs`:
`if self.size == 0 { 0.0 } else { self.done as f64 / self.size as f64 }`,
with the `f64` quotient modelled as an exact rational. -/
def Progress.percents (p : Progress) : ℚ :=
  if p.size = 0 then 0 else (p.done : ℚ) / (p.size : ℚ)

/-- The unit suffix table of `humanize`. -/
def sfx : List String := ["bytes", "KiB", "MiB", "GiB", "TiB", "PiB", "EiB", "ZiB"]

/-- The `while s >= 1024 && i < sfx.len() - 1` loop of `humanize`.
The loop counter `i` starts at 0 and the guard `i < 7` is realised
structurally by the remaining iteration count `k = 7 - i`, so the
function computes by `rfl`.  Returns the final `(s, f, i)`. -/
def humanizeGo : Nat → Nat → Nat → Nat → Nat × Nat × Nat
  | s, f, i, 0 => (s, f, i)
  | s, f, i, k + 1 =>
      if 1024 ≤ s then humanizeGo (s / 1024) (s % 1024) (i + 1) k else (s, f, i)

/-- Rust's `format!("{:.1}", m as f64 / 1024.0)` for `m < 2 ^ 20`
(every such value is exactly representable, and Rust's float formatting
rounds the exact value to the requested precision with ties to even):
renders `m / 1024` with exactly one decimal digit. -/
def fmtOneDec (m : Nat) : String :=
  let t := m * 10
  let q := t / 1024
  let r := t % 1024
  let q2 := if 512 < r ∨ (r = 512 ∧ q % 2 = 1) then q + 1 else q
  toString (q2 / 10) ++ "." ++ toString (q2 % 10)

/-- `humanize` from `imge.rs`: repeated division by 1024 tracking the
remainder of the last division, then `"{} bytes"` for the unconverted
case and `"{:.1} {suffix}"` otherwise. -/
def humanize (size : Nat) : String :=
  let r := humanizeGo size 0 0 (sfx.length - 1)
  let s := r.1
  let f := r.2.1
  let i := r.2.2
  if i = 0 then toString s ++ " bytes"
  else fmtOneDec (s * 1024 + f) ++ " " ++ sfx.getD i ""

/-- One result of a read call.
For a `File::read` (which returns `io::Result<usize>`), `chunk d` is
`Ok` with the bytes `d` and `rerr c` is `Err` with OS error code `c`.
For `archive_read_data` (which returns `isize`), `chunk d` is a
non-negative return of `d.length` bytes and `rerr c` is a negative
return (the code `c` is not observable there). -/
inductive REv
  | chunk (data : List Nat)
  | rerr (code : Nat)
deriving Repr, DecidableEq

/-- The error values the engine can return, one constructor per distinct
`io::Error` the source constructs, plus `os c` for an error propagated
from the OS by `?`. -/
inductive IErr
  | tooLarge
  | cannotOpenRead
  | cannotReadHeader
  | cannotOpenWrite
  | cannotWriteHeader
  | verificationFailed
  | os (code : Nat)
deriving Repr, DecidableEq

/-- Trace events: one per externally visible action of `copy`/`verify`.
`openDest dsync` records the `OpenOptions … create(true) … truncate(true)`
open of the copy destination together with whether `O_DSYNC` was
requested; `openDestDirect` is verify's read-only `O_DIRECT` open;
`updDone n` records `progress.done += n`; `finish` records the terminal
`progress.secs = …; progress.finished = true` update. -/
inductive Ev
  | openSrc
  | openDest (dsync : Bool)
  | openDestDirect
  | openArchR
  | openArchW
  | readSrc
  | readDest
  | writeDest (n : Nat)
  | writeArch (n : Nat)
  | updDone (n : Nat)
  | finish
deriving Repr, DecidableEq

/-- Environment for the three opens performed before the transfer loop:
`none` means the open succeeds, `some c` means it fails.  The two
`File` opens fail with an OS error code; the libarchive open fails with
one of the errors `libarchive_open_for_reading/writing` construct. -/
structure OpenEnv where
  srcOpenErr : Option Nat
  destOpenErr : Option Nat
  archOpenErr : Option IErr
deriving Repr, DecidableEq

/-- The all-successful open environment. -/
def okEnv : OpenEnv := ⟨none, none, none⟩

/-- The `loop { … }` of `copy` in `imge.rs`.
Each iteration consumes one source read event (an exhausted list reads
as end-of-stream, `chunk []`).  `from_drive` selects the source-read
branch of the `match`: `false` is `archive_read_data` (a negative
return, `rerr`, makes `len <= 0` hold and the loop `break`s), `true` is
`srcfile.read(…)?` (an `Err`, `rerr c`, propagates).  `useArch` is
`from_drive && image_mime_type != APPLICATION_OCTET_STREAM`: when true
the block goes to `archive_write_data`, whose return value the source
discards (modelled by consuming a result from `aEvs` and ignoring it);
otherwise to `destfile.write_all(…)?` which consumes the next result of
`wEvs` and propagates `some c` as an error.  Returns the result, the
total added to `progress.done`, and the loop's event trace. -/
def copyLoop (from_drive useArch : Bool) :
    List REv → List (Option Nat) → List Int → Nat →
    Except IErr Unit × Nat × List Ev
  | [], _, _, done => (.ok (), done, [.readSrc])
  | .rerr c :: _, _, _, done =>
      if from_drive then (.error (.os c), done, [.readSrc])
      else (.ok (), done, [.readSrc])
  | .chunk d :: rest, wEvs, aEvs, done =>
      if d.length = 0 then (.ok (), done, [.readSrc])
      else if useArch then
        let out := copyLoop from_drive useArch rest wEvs aEvs.tail (done + d.length)
        (out.1, out.2.1, .readSrc :: .writeArch d.length :: .updDone d.length :: out.2.2)
      else
        match wEvs.headD none with
        | some c => (.error (.os c), done, [.readSrc, .writeDest d.length])
        | none =>
          let out := copyLoop from_drive useArch rest wEvs.tail aEvs (done + d.length)
          (out.1, out.2.1, .readSrc :: .writeDest d.length :: .updDone d.length :: out.2.2)

/-- `copy` from `imge.rs` (lines 154–211).
In source order: the `if let (Some(ssize), Some(dsize)) … if !from_drive
&& ssize > dsize` precondition (returning "File too large" before any
open), `File::open(&src.path)?`, the destination
`OpenOptions … .custom_flags(libc::O_DSYNC).open(&dest.path)?` (the
`O_DSYNC` flag is requested unconditionally), the libarchive open
(reading the source when `!from_drive`, writing the destination when
`from_drive`), the block loop, and on clean loop exit
`progress.secs = elapsed; progress.finished = true`.  `elapsed` stands
for `timer.elapsed().as_secs()`.  Returns the result, the final state
of the shared `Progress` (initially `p0`), and the event trace. -/
def copy (srcSize destSize : Option Nat) (from_drive mimeOctet : Bool)
    (env : OpenEnv) (srcEvs : List REv) (wEvs : List (Option Nat))
    (aEvs : List Int) (elapsed : Nat) (p0 : Progress) :
    Except IErr Unit × Progress × List Ev :=
  if (match srcSize, destSize with
      | some ssize, some dsize => !from_drive && decide (dsize < ssize)
      | _, _ => false) then
    (.error .tooLarge, p0, [])
  else match env.srcOpenErr with
  | some c => (.error (.os c), p0, [.openSrc])
  | none =>
  match env.destOpenErr with
  | some c => (.error (.os c), p0, [.openSrc, .openDest true])
  | none =>
  match env.archOpenErr with
  | some e =>
      (.error e, p0,
       [.openSrc, .openDest true, if from_drive then .openArchW else .openArchR])
  | none =>
      let useArch := from_drive && !mimeOctet
      let opens : List Ev :=
        [.openSrc, .openDest true, if from_drive then .openArchW else .openArchR]
      let out := copyLoop from_drive useArch srcEvs wEvs aEvs 0
      match out.1 with
      | .error e => (.error e, { p0 with done := p0.done + out.2.1 }, opens ++ out.2.2)
      | .ok _ =>
          (.ok (),
           { p0 with done := p0.done + out.2.1, secs := elapsed, finished := true },
           opens ++ out.2.2 ++ [.finish])

/-- Overwriting the prefix of a persistent read buffer: a read that
returned `d` leaves the buffer holding `d` followed by the stale bytes
beyond `d.length`. -/
def overwrite (buf d : List Nat) : List Nat := d ++ buf.drop d.length

/-- The `loop { … }` of `verify` in `imge.rs`.
The source side is read exactly as in `copyLoop` (`from_drive = false`:
`archive_read_data` on the image, negative return breaks; `true`:
`srcfile.read(…)?` on the drive, `Err` propagates); `len <= 0` breaks.
The destination side then reads into the persistent `destbuffer`:
when `from_drive = false` via `destfile.read(destbuffer)?` (an `Err`
propagates; the returned count is discarded, the buffer keeps stale
bytes past it), when `from_drive = true` via `archive_read_data` whose
return the source discards entirely (a failed read leaves the buffer
stale and the loop continues).  Then `srcbuffer[..len] !=
destbuffer[..len]` returns the "Verification failed" error, else
`progress.done += len`.  Returns result, total added to `done`, and
trace. -/
def verifyLoop (from_drive : Bool) :
    List REv → List REv → List Nat → Nat → Except IErr Unit × Nat × List Ev
  | [], _, _, done => (.ok (), done, [.readSrc])
  | .rerr c :: _, _, _, done =>
      if from_drive then (.error (.os c), done, [.readSrc])
      else (.ok (), done, [.readSrc])
  | .chunk s :: rest, destEvs, dbuf, done =>
      if s.length = 0 then (.ok (), done, [.readSrc])
      else
        let dres : Except IErr (List Nat) :=
          match from_drive, destEvs.headD (.chunk []) with
          | false, .rerr c => .error (.os c)
          | true, .rerr _ => .ok dbuf
          | _, .chunk d => .ok (overwrite dbuf d)
        match dres with
        | .error e => (.error e, done, [.readSrc, .readDest])
        | .ok dbuf2 =>
            if s ≠ dbuf2.take s.length then
              (.error .verificationFailed, done, [.readSrc, .readDest])
            else
              let out := verifyLoop from_drive rest destEvs.tail dbuf2 (done + s.length)
              (out.1, out.2.1, .readSrc :: .readDest :: .updDone s.length :: out.2.2)

/-- `verify` from `imge.rs` (lines 213–270).
In source order: `File::open(&src.path)?`, the destination
`OpenOptions … .custom_flags(libc::O_DIRECT).open(&dest.path)?`, the
libarchive read-open (of the image: `src` when `!from_drive`, `dest`
when `from_drive`), the compare loop (with `dbuf0` the uninitialised
contents of the freshly `alloc`ed block-aligned `destbuffer`), and on
clean loop exit `progress.secs += elapsed; progress.finished = true`
(note `+=`, unlike `copy`). -/
def verify (env : OpenEnv) (from_drive : Bool) (srcEvs destEvs : List REv)
    (dbuf0 : List Nat) (elapsed : Nat) (p0 : Progress) :
    Except IErr Unit × Progress × List Ev :=
  match env.srcOpenErr with
  | some c => (.error (.os c), p0, [.openSrc])
  | none =>
  match env.destOpenErr with
  | some c => (.error (.os c), p0, [.openSrc, .openDestDirect])
  | none =>
  match env.archOpenErr with
  | some e => (.error e, p0, [.openSrc, .openDestDirect, .openArchR])
  | none =>
      let opens : List Ev := [.openSrc, .openDestDirect, .openArchR]
      let out := verifyLoop from_drive srcEvs destEvs dbuf0 0
      match out.1 with
      | .error e => (.error e, { p0 with done := p0.done + out.2.1 }, opens ++ out.2.2)
      | .ok _ =>
          (.ok (),
           { p0 with done := p0.done + out.2.1, secs := p0.secs + elapsed,
                     finished := true },
           opens ++ out.2.2 ++ [.finish])

/-- The lengths added to `progress.done` along a trace, in order. -/
def doneAdds (tr : List Ev) : List Nat :=
  tr.filterMap fun e => match e with | .updDone n => some n | _ => none

/-- The number of source-side reads issued along a trace. -/
def countReadSrc (tr : List Ev) : Nat :=
  (tr.filter fun e => e = Ev.readSrc).length

/-- The successive values of `progress.done` an observer can see:
the initial value followed by the value after each update. -/
def doneSeq (init : Nat) (tr : List Ev) : List Nat :=
  (doneAdds tr).scanl (· + ·) init

/-- The number of destination-side reads issued along a trace. -/
def countReadDest (tr : List Ev) : Nat :=
  (tr.filter fun e => e = Ev.readDest).length

/-- The number of `finished = true` updates along a trace. -/
def countFinish (tr : List Ev) : Nat :=
  (tr.filter fun e => e = Ev.finish).length

instance : DecidableEq (Except IErr Unit) := fun a b =>
  match a, b with
  | .ok (), .ok () => isTrue rfl
  | .error e, .error f =>
      if h : e = f then isTrue (by rw [h])
      else isFalse fun hh => h (by cases hh; rfl)
  | .ok _, .error _ => isFalse fun h => Except.noConfusion h
  | .error _, .ok _ => isFalse fun h => Except.noConfusion h

/-! ## Claim C10: `Progress::percents` -/

/-- C10: `percents` returns 0 when `size = 0`, `done / size` otherwise
(so it never divides by zero), and the result is not clamped: it
exceeds 1 whenever `done > size > 0`. -/
theorem percents_spec (p : Progress) :
    (p.size = 0 → p.percents = 0)
    ∧ (p.size ≠ 0 → p.percents = (p.done : ℚ) / (p.size : ℚ))
    ∧ (0 < p.size → p.size < p.done → 1 < p.percents) := by
  refine ⟨fun h => by simp [Progress.percents, h],
          fun h => by simp [Progress.percents, h],
          fun h1 h2 => ?_⟩
  have hs : ¬ p.size = 0 := by omega
  simp only [Progress.percents, hs, if_false]
  rw [one_lt_div (by exact_mod_cast h1)]
  exact_mod_cast h2

/-- Witness for C10 at concrete progress values. -/
theorem percents_spec_witness :
    (Progress.mk 0 5 0 false).percents = 0
    ∧ 1 < (Progress.mk 2 3 0 false).percents :=
  ⟨(percents_spec ⟨0, 5, 0, false⟩).1 rfl,
   (percents_spec ⟨2, 3, 0, false⟩).2.2 (by norm_num) (by norm_num)⟩

/-! ## Claim C2: the size precondition -/

/-- C2 counterexample: the claim asserts that *every* copy invocation
with both sizes known and `src.size > dest.size` fails with the
"too large" error, but the source guards the check with `!from_drive`:
with `from_drive = true`, `src.size = 100 > dest.size = 50` and an
immediately exhausted source, `copy` returns success (and has opened
the destination with `create`/`truncate`). -/
theorem copy_size_guard_counterexample :
    (copy (some 100) (some 50) true true okEnv [] [] [] 0 ⟨100, 0, 0, false⟩).1
        = .ok ()
    ∧ (copy (some 100) (some 50) true true okEnv [] [] [] 0 ⟨100, 0, 0, false⟩).1
        ≠ .error .tooLarge := by
  exact ⟨rfl, by decide⟩

/-- C2 amended: when copying image→drive (`from_drive = false`) and both
sizes are known with `src.size > dest.size`, `copy` fails immediately
with the "too large" error, before opening either endpoint (the event
trace is empty, so the destination is neither created, truncated nor
written) and without touching the progress record. -/
theorem copy_size_guard (ssize dsize : Nat) (h : dsize < ssize) (mo : Bool)
    (env : OpenEnv) (srcEvs : List REv) (wEvs : List (Option Nat))
    (aEvs : List Int) (elapsed : Nat) (p0 : Progress) :
    copy (some ssize) (some dsize) false mo env srcEvs wEvs aEvs elapsed p0
      = (.error .tooLarge, p0, []) := by
  simp [copy, h]

/-- Witness for C2's amended theorem at a concrete invocation. -/
theorem copy_size_guard_witness :
    copy (some 100) (some 50) false true okEnv [] [] [] 0 ⟨100, 0, 0, false⟩
      = (.error .tooLarge, ⟨100, 0, 0, false⟩, []) :=
  copy_size_guard 100 50 (by norm_num) true okEnv [] [] [] 0 ⟨100, 0, 0, false⟩

/-! ## Claim C3: error propagation -/

/-- C3: the code contradicts the claim that no mid-transfer error is
swallowed.  Concrete failing input: an image→drive copy
(`from_drive = false`) whose decompression-layer read
(`archive_read_data`) fails with a negative return after one 3-byte
block.  The loop treats `len <= 0` as clean end-of-stream, `break`s,
and `copy` returns success with `finished = true`, instead of
propagating an I/O error. -/
theorem copy_swallows_decompressor_error :
    copy (some 5) (some 100) false true okEnv
        [REv.chunk [1, 2, 3], REv.rerr 5] [] [] 7 ⟨5, 0, 0, false⟩
      = (.ok (), ⟨5, 3, 7, true⟩,
         [.openSrc, .openDest true, .openArchR, .readSrc, .writeDest 3,
          .updDone 3, .readSrc, .finish]) := rfl

/-! ## Trace-shape helper lemmas for the two loops -/

/-- Every event the copy loop emits is a read, a write, or a
`done` update — in particular neither an open nor `finish`. -/
theorem copyLoop_events (fd ua : Bool) (evs : List REv) (wEvs : List (Option Nat))
    (aEvs : List Int) (done : Nat) :
    ∀ e ∈ (copyLoop fd ua evs wEvs aEvs done).2.2,
      e = Ev.readSrc ∨ (∃ n, e = Ev.writeDest n) ∨ (∃ n, e = Ev.writeArch n)
        ∨ (∃ n, e = Ev.updDone n) := by
  induction evs generalizing wEvs aEvs done with
  | nil => intro e he; simp [copyLoop] at he; simp [he]
  | cons ev rest ih =>
    intro e he
    cases ev with
    | rerr c =>
      cases fd <;> simp [copyLoop, List.mem_cons] at he <;> simp [he]
    | chunk d =>
      by_cases hd : d.length = 0
      · simp [copyLoop, hd] at he; simp [he]
      · cases ua with
        | true =>
          simp only [copyLoop, if_neg hd, if_true, List.mem_cons] at he
          rcases he with rfl | rfl | rfl | h
          · simp
          · simp
          · simp
          · exact ih _ _ _ _ h
        | false =>
          cases hw : wEvs.headD none with
          | some c =>
            simp only [copyLoop, if_neg hd, hw, List.mem_cons,
              List.not_mem_nil, or_false, Bool.false_eq_true, if_false] at he
            rcases he with rfl | rfl
            · simp
            · simp
          | none =>
            simp only [copyLoop, if_neg hd, hw, List.mem_cons,
              Bool.false_eq_true, if_false] at he
            rcases he with rfl | rfl | rfl | h
            · simp
            · simp
            · simp
            · exact ih _ _ _ _ h

/-- Every event the verify loop emits is a read or a `done` update. -/
theorem verifyLoop_events (fd : Bool) (evs destEvs : List REv) (dbuf : List Nat)
    (done : Nat) :
    ∀ e ∈ (verifyLoop fd evs destEvs dbuf done).2.2,
      e = Ev.readSrc ∨ e = Ev.readDest ∨ ∃ n, e = Ev.updDone n := by
  induction evs generalizing destEvs dbuf done with
  | nil => intro e he; simp [verifyLoop] at he; simp [he]
  | cons ev rest ih =>
    intro e he
    cases ev with
    | rerr c =>
      cases fd <;> simp [verifyLoop, List.mem_cons] at he <;> simp [he]
    | chunk s =>
      by_cases hs : s.length = 0
      · simp [verifyLoop, hs] at he; simp [he]
      · simp only [verifyLoop, if_neg hs] at he
        cases fd with
        | false =>
          cases hde : destEvs.headD (REv.chunk []) with
          | rerr c =>
            simp only [hde, List.mem_cons, List.not_mem_nil, or_false] at he
            rcases he with rfl | rfl
            · simp
            · simp
          | chunk d =>
            simp only [hde] at he
            by_cases hc : s ≠ (overwrite dbuf d).take s.length
            · simp only [if_pos hc, List.mem_cons, List.not_mem_nil, or_false] at he
              rcases he with rfl | rfl
              · simp
              · simp
            · simp only [if_neg hc, List.mem_cons] at he
              rcases he with rfl | rfl | rfl | h
              · simp
              · simp
              · simp
              · exact ih _ _ _ _ h
        | true =>
          cases hde : destEvs.headD (REv.chunk []) with
          | rerr c =>
            simp only [hde] at he
            by_cases hc : s ≠ dbuf.take s.length
            · simp only [if_pos hc, List.mem_cons, List.not_mem_nil, or_false] at he
              rcases he with rfl | rfl
              · simp
              · simp
            · simp only [if_neg hc, List.mem_cons] at he
              rcases he with rfl | rfl | rfl | h
              · simp
              · simp
              · simp
              · exact ih _ _ _ _ h
          | chunk d =>
            simp only [hde] at he
            by_cases hc : s ≠ (overwrite dbuf d).take s.length
            · simp only [if_pos hc, List.mem_cons, List.not_mem_nil, or_false] at he
              rcases he with rfl | rfl
              · simp
              · simp
            · simp only [if_neg hc, List.mem_cons] at he
              rcases he with rfl | rfl | rfl | h
              · simp
              · simp
              · simp
              · exact ih _ _ _ _ h

theorem countReadSrc_cons (e : Ev) (tr : List Ev) :
    countReadSrc (e :: tr) = (if e = Ev.readSrc then 1 else 0) + countReadSrc tr := by
  by_cases he : e = Ev.readSrc <;>
    simp [countReadSrc, List.filter_cons, he, Nat.add_comm]

/-- The verify loop's trace always begins with the source-side read. -/
theorem verifyLoop_trace_head (fd : Bool) (evs destEvs : List REv) (dbuf : List Nat)
    (done : Nat) :
    ∃ tr, (verifyLoop fd evs destEvs dbuf done).2.2 = Ev.readSrc :: tr := by
  cases evs with
  | nil => exact ⟨[], rfl⟩
  | cons ev rest =>
    cases ev with
    | rerr c => cases fd <;> simp [verifyLoop]
    | chunk s =>
      by_cases hs : s.length = 0
      · simp [verifyLoop, hs]
      · simp only [verifyLoop, if_neg hs]
        cases fd with
        | false =>
          cases hde : destEvs.headD (REv.chunk []) with
          | rerr c => simp only [hde]; exact ⟨[Ev.readDest], rfl⟩
          | chunk d =>
            simp only [hde]
            by_cases hc : s ≠ (overwrite dbuf d).take s.length
            · simp [if_pos hc]
            · simp [if_neg hc]
        | true =>
          cases hde : destEvs.headD (REv.chunk []) with
          | rerr c =>
            simp only [hde]
            by_cases hc : s ≠ dbuf.take s.length
            · simp [if_pos hc]
            · simp [if_neg hc]
          | chunk d =>
            simp only [hde]
            by_cases hc : s ≠ (overwrite dbuf d).take s.length
            · simp [if_pos hc]
            · simp [if_neg hc]

theorem verifyLoop_readSrc_pos (fd : Bool) (evs destEvs : List REv)
    (dbuf : List Nat) (done : Nat) :
    1 ≤ countReadSrc (verifyLoop fd evs destEvs dbuf done).2.2 := by
  obtain ⟨tr, htr⟩ := verifyLoop_trace_head fd evs destEvs dbuf done
  rw [htr, countReadSrc_cons]
  simp

/-! ## Claim C9: `O_DSYNC` on the copy destination -/

/-- C9 counterexample: the claim asserts an Image destination is never
opened with synchronous-write semantics, but with `from_drive = true`
(destination is the image file) the destination open still carries
`O_DSYNC`. -/
theorem copy_dsync_counterexample :
    Ev.openDest true
      ∈ (copy (some 100) (some 200) true true okEnv [] [] [] 0
          ⟨100, 0, 0, false⟩).2.2 := by
  decide

/-- C9 amended: `copy` opens its destination with `O_DSYNC`
unconditionally — every destination open in every copy trace requests
synchronous data writes, whether the destination is the drive
(`from_drive = false`) or the image (`from_drive = true`). -/
theorem copy_dsync_always (srcSize destSize : Option Nat) (fd mo : Bool)
    (env : OpenEnv) (srcEvs : List REv) (wEvs : List (Option Nat))
    (aEvs : List Int) (elapsed : Nat) (p0 : Progress) (b : Bool)
    (hb : Ev.openDest b
      ∈ (copy srcSize destSize fd mo env srcEvs wEvs aEvs elapsed p0).2.2) :
    b = true := by
  rcases env with ⟨se, de, ae⟩
  unfold copy at hb
  split at hb
  · simp at hb
  · cases se with
    | some c => simp at hb
    | none =>
      cases de with
      | some c =>
        simp at hb
        exact hb
      | none =>
        cases ae with
        | some e =>
          cases fd <;> simp at hb <;> exact hb
        | none =>
          simp only at hb
          cases fd with
          | false =>
            split at hb <;>
            · simp at hb
              rcases hb with hb | hb
              · exact hb
              · exfalso
                rcases copyLoop_events false false srcEvs wEvs aEvs 0 _ hb with
                  h | ⟨n, h⟩ | ⟨n, h⟩ | ⟨n, h⟩ <;> simp at h
          | true =>
            split at hb <;>
            · simp at hb
              rcases hb with hb | hb
              · exact hb
              · exfalso
                rcases copyLoop_events true (!mo) srcEvs wEvs aEvs 0 _ hb with
                  h | ⟨n, h⟩ | ⟨n, h⟩ | ⟨n, h⟩ <;> simp at h

/-- Witness for C9's amended theorem: a concrete copy trace contains a
destination open, and the theorem forces its `dsync` flag to be true. -/
theorem copy_dsync_always_witness :
    (true : Bool) = true
    ∧ Ev.openDest true
        ∈ (copy (some 1) (some 2) false true okEnv [] [] [] 0
            ⟨1, 0, 0, false⟩).2.2 :=
  ⟨copy_dsync_always (some 1) (some 2) false true okEnv [] [] [] 0
      ⟨1, 0, 0, false⟩ true (by decide),
   by decide⟩

/-! ## Claim C5: short reads and end-of-stream in the verify loop -/

/-- C5 counterexample: the claim asserts that a source-side read shorter
than the 1 MiB block ends the verify loop with no further source-side
read.  Concretely, a 1-byte read (shorter than `BLOCK_SIZE`) followed by
more data leads to 3 source-side reads in total, and the call still
succeeds: the loop only stops on a read of zero bytes. -/
theorem verify_short_read_counterexample :
    (1 : Nat) < BLOCK_SIZE
    ∧ (verify okEnv true [REv.chunk [1], REv.chunk [2], REv.chunk []]
        [REv.chunk [1, 9], REv.chunk [2, 9]] [] 0 ⟨2, 0, 0, false⟩).1 = .ok ()
    ∧ countReadSrc (verify okEnv true [REv.chunk [1], REv.chunk [2], REv.chunk []]
        [REv.chunk [1, 9], REv.chunk [2, 9]] [] 0 ⟨2, 0, 0, false⟩).2.2 = 3 :=
  ⟨by norm_num [BLOCK_SIZE], rfl, rfl⟩

/-- C5 amended: in the verify loop only a source-side read returning
no bytes (a zero-length chunk — or, on the archive branch, a negative
return) marks end-of-stream; a short positive read is compared over its
actual length and, when the block matches, the loop issues at least one
further source-side read. -/
theorem verifyLoop_short_read_not_final (fd : Bool) (c : Nat) (s d : List Nat)
    (rest ds : List REv) (dbuf : List Nat) (done : Nat)
    (hs : 0 < s.length) (hshort : s.length < BLOCK_SIZE)
    (hsd : s.length ≤ d.length) (hcmp : s = d.take s.length) :
    verifyLoop fd (REv.chunk [] :: rest) ds dbuf done = (.ok (), done, [Ev.readSrc])
    ∧ (fd = false →
        verifyLoop fd (REv.rerr c :: rest) ds dbuf done
          = (.ok (), done, [Ev.readSrc]))
    ∧ 2 ≤ countReadSrc
        (verifyLoop fd (REv.chunk s :: rest) (REv.chunk d :: ds) dbuf done).2.2 := by
  refine ⟨by simp [verifyLoop], fun hfd => by simp [verifyLoop, hfd], ?_⟩
  have hcmp2 : ¬ s ≠ (overwrite dbuf d).take s.length := by
    simp only [overwrite, ne_eq, not_not]
    rw [List.take_append_of_le_length hsd]
    exact hcmp
  have hne : ¬ s.length = 0 := by omega
  have e1 : (if (Ev.readSrc = Ev.readSrc) then 1 else 0) = 1 := by simp
  have e2 : (if (Ev.readDest = Ev.readSrc) then 1 else 0) = 0 := by simp
  have e3 : (if (Ev.updDone s.length = Ev.readSrc) then 1 else 0) = 0 := by simp
  have h1 := verifyLoop_readSrc_pos true rest ds (overwrite dbuf d) (done + s.length)
  have h2 := verifyLoop_readSrc_pos false rest ds (overwrite dbuf d) (done + s.length)
  cases fd <;>
  · simp only [verifyLoop, if_neg hne, List.headD_cons, if_neg hcmp2, List.tail_cons]
    rw [countReadSrc_cons, countReadSrc_cons, countReadSrc_cons, e1, e2, e3]
    omega

/-- Witness for C5's amended theorem at a concrete invocation. -/
theorem verifyLoop_short_read_not_final_witness :
    verifyLoop true (REv.chunk [] :: []) [] [] 0 = (.ok (), 0, [Ev.readSrc])
    ∧ 2 ≤ countReadSrc
        (verifyLoop true (REv.chunk [5] :: []) (REv.chunk [5, 6] :: []) [] 0).2.2 := by
  have h := verifyLoop_short_read_not_final true 0 [5] [5, 6] [] [] [] 0
    (by norm_num) (by norm_num [BLOCK_SIZE]) (by norm_num) (by decide)
  exact ⟨h.1, h.2.2⟩

theorem countFinish_concat_of_not_mem (tr : List Ev) (h : Ev.finish ∉ tr) :
    countFinish (tr ++ [Ev.finish]) = 1 := by
  have hnil : tr.filter (fun e => e = Ev.finish) = [] := by
    apply List.filter_eq_nil_iff.mpr
    intro a ha
    simp only [decide_eq_true_eq]
    intro hfe
    exact h (hfe ▸ ha)
  simp [countFinish, List.filter_append, hnil]

/-- Case shape of a `copy` call: either it returns an error and the
progress record keeps its initial `secs` and `finished` with no
`finish` event emitted, or it returns success, `secs` is replaced by
the elapsed time, `finished` is set, and the `finish` event is the
unique last event of the trace. -/
theorem copy_shape (srcSize destSize : Option Nat) (fd mo : Bool) (env : OpenEnv)
    (srcEvs : List REv) (wEvs : List (Option Nat)) (aEvs : List Int)
    (elapsed : Nat) (p0 : Progress) :
    (∃ e, (copy srcSize destSize fd mo env srcEvs wEvs aEvs elapsed p0).1
            = .error e
        ∧ (copy srcSize destSize fd mo env srcEvs wEvs aEvs elapsed p0).2.1.secs
            = p0.secs
        ∧ (copy srcSize destSize fd mo env srcEvs wEvs aEvs elapsed p0).2.1.finished
            = p0.finished
        ∧ Ev.finish
            ∉ (copy srcSize destSize fd mo env srcEvs wEvs aEvs elapsed p0).2.2)
    ∨ ((copy srcSize destSize fd mo env srcEvs wEvs aEvs elapsed p0).1 = .ok ()
        ∧ (copy srcSize destSize fd mo env srcEvs wEvs aEvs elapsed p0).2.1.secs
            = elapsed
        ∧ (copy srcSize destSize fd mo env srcEvs wEvs aEvs elapsed p0).2.1.finished
            = true
        ∧ ∃ tr, (copy srcSize destSize fd mo env srcEvs wEvs aEvs elapsed p0).2.2
              = tr ++ [Ev.finish] ∧ Ev.finish ∉ tr) := by
  rcases env with ⟨se, de, ae⟩
  have hloop : ∀ ua, Ev.finish ∈ (copyLoop fd ua srcEvs wEvs aEvs 0).2.2 → False := by
    intro ua hmem
    rcases copyLoop_events fd ua srcEvs wEvs aEvs 0 _ hmem with
      h | ⟨n, h⟩ | ⟨n, h⟩ | ⟨n, h⟩ <;> simp at h
  unfold copy
  split
  · exact Or.inl ⟨.tooLarge, rfl, rfl, rfl, by simp⟩
  · cases se with
    | some c => exact Or.inl ⟨.os c, rfl, rfl, rfl, by simp⟩
    | none =>
      cases de with
      | some c => exact Or.inl ⟨.os c, rfl, rfl, rfl, by simp⟩
      | none =>
        cases ae with
        | some e =>
          refine Or.inl ⟨e, rfl, rfl, rfl, ?_⟩
          cases fd <;> simp
        | none =>
          simp only
          split
          · rename_i e heq
            refine Or.inl ⟨e, rfl, rfl, rfl, ?_⟩
            intro hmem
            simp only [List.mem_append, List.mem_cons] at hmem
            rcases hmem with (h | h | h | h) | h
            · exact Ev.noConfusion h
            · exact Ev.noConfusion h
            · revert h; cases fd <;> simp
            · simp at h
            · exact hloop _ h
          · rename_i u heq
            refine Or.inr ⟨rfl, rfl, rfl,
              ⟨[Ev.openSrc, Ev.openDest true,
                  if fd then Ev.openArchW else Ev.openArchR]
                ++ (copyLoop fd (fd && !mo) srcEvs wEvs aEvs 0).2.2, ?_, ?_⟩⟩
            · simp
            · intro hmem
              simp only [List.mem_append, List.mem_cons] at hmem
              rcases hmem with (h | h | h | h) | h
              · exact Ev.noConfusion h
              · exact Ev.noConfusion h
              · revert h; cases fd <;> simp
              · simp at h
              · exact hloop _ h

/-- Case shape of a `verify` call, analogous to `copy_shape`; on success
`secs` is increased by the elapsed time (`+=`), not replaced. -/
theorem verify_shape (env : OpenEnv) (fd : Bool) (srcEvs destEvs : List REv)
    (dbuf0 : List Nat) (elapsed : Nat) (p0 : Progress) :
    (∃ e, (verify env fd srcEvs destEvs dbuf0 elapsed p0).1 = .error e
        ∧ (verify env fd srcEvs destEvs dbuf0 elapsed p0).2.1.secs = p0.secs
        ∧ (verify env fd srcEvs destEvs dbuf0 elapsed p0).2.1.finished = p0.finished
        ∧ Ev.finish ∉ (verify env fd srcEvs destEvs dbuf0 elapsed p0).2.2)
    ∨ ((verify env fd srcEvs destEvs dbuf0 elapsed p0).1 = .ok ()
        ∧ (verify env fd srcEvs destEvs dbuf0 elapsed p0).2.1.secs
            = p0.secs + elapsed
        ∧ (verify env fd srcEvs destEvs dbuf0 elapsed p0).2.1.finished = true
        ∧ ∃ tr, (verify env fd srcEvs destEvs dbuf0 elapsed p0).2.2
              = tr ++ [Ev.finish] ∧ Ev.finish ∉ tr) := by
  rcases env with ⟨se, de, ae⟩
  have hloop : Ev.finish ∈ (verifyLoop fd srcEvs destEvs dbuf0 0).2.2 → False := by
    intro hmem
    rcases verifyLoop_events fd srcEvs destEvs dbuf0 0 _ hmem with
      h | h | ⟨n, h⟩ <;> simp at h
  unfold verify
  cases se with
  | some c => exact Or.inl ⟨.os c, rfl, rfl, rfl, by simp⟩
  | none =>
    cases de with
    | some c => exact Or.inl ⟨.os c, rfl, rfl, rfl, by simp⟩
    | none =>
      cases ae with
      | some e => exact Or.inl ⟨e, rfl, rfl, rfl, by simp⟩
      | none =>
        simp only
        split
        · rename_i e heq
          refine Or.inl ⟨e, rfl, rfl, rfl, ?_⟩
          intro hmem
          simp only [List.mem_append, List.mem_cons] at hmem
          rcases hmem with (h | h | h | h) | h
          · exact Ev.noConfusion h
          · exact Ev.noConfusion h
          · exact Ev.noConfusion h
          · simp at h
          · exact hloop h
        · rename_i u heq
          refine Or.inr ⟨rfl, rfl, rfl,
            ⟨[Ev.openSrc, Ev.openDestDirect, Ev.openArchR]
              ++ (verifyLoop fd srcEvs destEvs dbuf0 0).2.2, ?_, ?_⟩⟩
          · simp
          · intro hmem
            simp only [List.mem_append, List.mem_cons] at hmem
            rcases hmem with (h | h | h | h) | h
            · exact Ev.noConfusion h
            · exact Ev.noConfusion h
            · exact Ev.noConfusion h
            · simp at h
            · exact hloop h

/-! ## Claim C6: `finished` is set exactly once, only on success -/

/-- C6: `copy` and `verify` set `progress.finished = true` exactly once,
as the last step of the call, and only when returning success; on every
error return `finished` keeps its initial value (so it stays false) and
the error is reported only through the return value. -/
theorem finished_only_on_success
    (srcSize destSize : Option Nat) (fd mo fd2 : Bool) (env env2 : OpenEnv)
    (srcEvs : List REv) (wEvs : List (Option Nat)) (aEvs : List Int)
    (srcEvs2 destEvs2 : List REv) (dbuf0 : List Nat) (e1 e2 : Nat)
    (p0 q0 : Progress) :
    (((copy srcSize destSize fd mo env srcEvs wEvs aEvs e1 p0).1 = .ok () →
        (copy srcSize destSize fd mo env srcEvs wEvs aEvs e1 p0).2.1.finished = true
        ∧ (copy srcSize destSize fd mo env srcEvs wEvs aEvs e1 p0).2.2.getLast?
            = some Ev.finish
        ∧ countFinish (copy srcSize destSize fd mo env srcEvs wEvs aEvs e1 p0).2.2
            = 1)
      ∧ ∀ er, (copy srcSize destSize fd mo env srcEvs wEvs aEvs e1 p0).1 = .error er →
          (copy srcSize destSize fd mo env srcEvs wEvs aEvs e1 p0).2.1.finished
              = p0.finished
          ∧ Ev.finish ∉ (copy srcSize destSize fd mo env srcEvs wEvs aEvs e1 p0).2.2)
    ∧ (((verify env2 fd2 srcEvs2 destEvs2 dbuf0 e2 q0).1 = .ok () →
        (verify env2 fd2 srcEvs2 destEvs2 dbuf0 e2 q0).2.1.finished = true
        ∧ (verify env2 fd2 srcEvs2 destEvs2 dbuf0 e2 q0).2.2.getLast?
            = some Ev.finish
        ∧ countFinish (verify env2 fd2 srcEvs2 destEvs2 dbuf0 e2 q0).2.2 = 1)
      ∧ ∀ er, (verify env2 fd2 srcEvs2 destEvs2 dbuf0 e2 q0).1 = .error er →
          (verify env2 fd2 srcEvs2 destEvs2 dbuf0 e2 q0).2.1.finished = q0.finished
          ∧ Ev.finish ∉ (verify env2 fd2 srcEvs2 destEvs2 dbuf0 e2 q0).2.2) := by
  constructor
  · rcases copy_shape srcSize destSize fd mo env srcEvs wEvs aEvs e1 p0 with
      ⟨e, he, _, hfin, hnm⟩ | ⟨hok, _, hfin, tr, htr, hnm⟩
    · refine ⟨fun hok => absurd hok (by rw [he]; exact fun h => Except.noConfusion h),
        fun er her => ⟨hfin, hnm⟩⟩
    · refine ⟨fun _ => ⟨hfin, ?_, ?_⟩, fun er her => absurd her (by simp [hok])⟩
      · rw [htr]; exact List.getLast?_concat tr
      · rw [htr]; exact countFinish_concat_of_not_mem tr hnm
  · rcases verify_shape env2 fd2 srcEvs2 destEvs2 dbuf0 e2 q0 with
      ⟨e, he, _, hfin, hnm⟩ | ⟨hok, _, hfin, tr, htr, hnm⟩
    · refine ⟨fun hok => absurd hok (by rw [he]; exact fun h => Except.noConfusion h),
        fun er her => ⟨hfin, hnm⟩⟩
    · refine ⟨fun _ => ⟨hfin, ?_, ?_⟩, fun er her => absurd her (by simp [hok])⟩
      · rw [htr]; exact List.getLast?_concat tr
      · rw [htr]; exact countFinish_concat_of_not_mem tr hnm

/-- Witness for C6 at concrete successful invocations. -/
theorem finished_only_on_success_witness :
    (copy none none false true okEnv [] [] [] 0 ⟨0, 0, 0, false⟩).2.1.finished = true
    ∧ (verify okEnv false [] [] [] 0 ⟨0, 0, 0, false⟩).2.1.finished = true :=
  ⟨((finished_only_on_success none none false true false okEnv okEnv [] [] [] [] []
      [] 0 0 ⟨0, 0, 0, false⟩ ⟨0, 0, 0, false⟩).1.1 rfl).1,
   ((finished_only_on_success none none false true false okEnv okEnv [] [] [] [] []
      [] 0 0 ⟨0, 0, 0, false⟩ ⟨0, 0, 0, false⟩).2.1 rfl).1⟩

/-! ## Claim C7: `secs` is replaced by `copy`, added to by `verify` -/

/-- C7: on clean completion `copy` assigns `progress.secs = elapsed`
(replacing any prior value), while `verify` adds its elapsed seconds to
the existing `progress.secs`; hence a verify phase run on the progress
record a successful copy produced reports the combined duration. -/
theorem secs_replaced_vs_added
    (srcSize destSize : Option Nat) (fd mo fd2 : Bool) (env env2 : OpenEnv)
    (srcEvs : List REv) (wEvs : List (Option Nat)) (aEvs : List Int)
    (srcEvs2 destEvs2 : List REv) (dbuf0 : List Nat) (e1 e2 : Nat)
    (p0 q0 : Progress) :
    (((copy srcSize destSize fd mo env srcEvs wEvs aEvs e1 p0).1 = .ok () →
        (copy srcSize destSize fd mo env srcEvs wEvs aEvs e1 p0).2.1.secs = e1)
      ∧ ((verify env2 fd2 srcEvs2 destEvs2 dbuf0 e2 q0).1 = .ok () →
        (verify env2 fd2 srcEvs2 destEvs2 dbuf0 e2 q0).2.1.secs = q0.secs + e2))
    ∧ ((copy srcSize destSize fd mo env srcEvs wEvs aEvs e1 p0).1 = .ok () →
       (verify env2 fd2 srcEvs2 destEvs2 dbuf0 e2
          (copy srcSize destSize fd mo env srcEvs wEvs aEvs e1 p0).2.1).1 = .ok () →
       (verify env2 fd2 srcEvs2 destEvs2 dbuf0 e2
          (copy srcSize destSize fd mo env srcEvs wEvs aEvs e1 p0).2.1).2.1.secs
         = e1 + e2) := by
  have hcopy : (copy srcSize destSize fd mo env srcEvs wEvs aEvs e1 p0).1 = .ok () →
      (copy srcSize destSize fd mo env srcEvs wEvs aEvs e1 p0).2.1.secs = e1 := by
    intro hok
    rcases copy_shape srcSize destSize fd mo env srcEvs wEvs aEvs e1 p0 with
      ⟨e, he, _⟩ | ⟨_, hsecs, _⟩
    · rw [he] at hok; exact Except.noConfusion hok
    · exact hsecs
  have hverify : ∀ q : Progress,
      (verify env2 fd2 srcEvs2 destEvs2 dbuf0 e2 q).1 = .ok () →
      (verify env2 fd2 srcEvs2 destEvs2 dbuf0 e2 q).2.1.secs = q.secs + e2 := by
    intro q hok
    rcases verify_shape env2 fd2 srcEvs2 destEvs2 dbuf0 e2 q with
      ⟨e, he, _⟩ | ⟨_, hsecs, _⟩
    · rw [he] at hok; exact Except.noConfusion hok
    · exact hsecs
  refine ⟨⟨hcopy, hverify q0⟩, fun h1 h2 => ?_⟩
  rw [hverify _ h2, hcopy h1]

/-- Witness for C7 at concrete successful invocations, including the
combined copy-then-verify duration. -/
theorem secs_replaced_vs_added_witness :
    (copy none none false true okEnv [] [] [] 4 ⟨0, 0, 9, false⟩).2.1.secs = 4
    ∧ (verify okEnv false [] [] [] 5
        (copy none none false true okEnv [] [] [] 4 ⟨0, 0, 9, false⟩).2.1).2.1.secs
        = 4 + 5 :=
  ⟨((secs_replaced_vs_added none none false true false okEnv okEnv [] [] [] [] []
      [] 4 5 ⟨0, 0, 9, false⟩ ⟨0, 0, 9, false⟩).1.1 rfl),
   ((secs_replaced_vs_added none none false true false okEnv okEnv [] [] [] [] []
      [] 4 5 ⟨0, 0, 9, false⟩ ⟨0, 0, 9, false⟩).2 rfl rfl)⟩

theorem countReadSrc_append (a b : List Ev) :
    countReadSrc (a ++ b) = countReadSrc a + countReadSrc b := by
  simp [countReadSrc, List.filter_append]

theorem countReadDest_cons (e : Ev) (tr : List Ev) :
    countReadDest (e :: tr) = (if e = Ev.readDest then 1 else 0) + countReadDest tr := by
  by_cases he : e = Ev.readDest <;>
    simp [countReadDest, List.filter_cons, he, Nat.add_comm]

theorem countReadDest_append (a b : List Ev) :
    countReadDest (a ++ b) = countReadDest a + countReadDest b := by
  simp [countReadDest, List.filter_append]

theorem doneAdds_append (a b : List Ev) :
    doneAdds (a ++ b) = doneAdds a ++ doneAdds b := by
  simp [doneAdds, List.filterMap_append]

/-- If the first `i` blocks compare equal and block `i` (0-based) differs
within the source read's length, the verify loop returns the
verification-failure error, has added exactly the bytes of the `i`
matching blocks to `done`, and has issued exactly `i + 1` reads on each
side.  `hfull` says each compared destination read returned at least as
many bytes as the source read, so no stale buffer bytes take part. -/
theorem verifyLoop_first_mismatch (fd : Bool) (cs ds : List (List Nat)) (i : Nat)
    (dbuf : List Nat) (done : Nat)
    (hpos : ∀ j, j ≤ i → 0 < (cs.getD j []).length)
    (hfull : ∀ j, j ≤ i → (cs.getD j []).length ≤ (ds.getD j []).length)
    (hmatch : ∀ j, j < i → cs.getD j [] = (ds.getD j []).take (cs.getD j []).length)
    (hfail : cs.getD i [] ≠ (ds.getD i []).take (cs.getD i []).length) :
    (verifyLoop fd (cs.map REv.chunk) (ds.map REv.chunk) dbuf done).1
        = .error .verificationFailed
    ∧ (verifyLoop fd (cs.map REv.chunk) (ds.map REv.chunk) dbuf done).2.1
        = done + ((cs.take i).map List.length).sum
    ∧ countReadSrc (verifyLoop fd (cs.map REv.chunk) (ds.map REv.chunk) dbuf done).2.2
        = i + 1
    ∧ countReadDest (verifyLoop fd (cs.map REv.chunk) (ds.map REv.chunk) dbuf done).2.2
        = i + 1 := by
  induction i generalizing cs ds dbuf done with
  | zero =>
    obtain ⟨c, cs', rfl⟩ : ∃ c cs', cs = c :: cs' := by
      cases cs with
      | nil => exfalso; have := hpos 0 le_rfl; simp at this
      | cons c cs' => exact ⟨c, cs', rfl⟩
    obtain ⟨d, ds', rfl⟩ : ∃ d ds', ds = d :: ds' := by
      cases ds with
      | nil =>
        exfalso
        have h1 := hpos 0 le_rfl
        have h2 := hfull 0 le_rfl
        rw [List.getD_cons_zero] at h1 h2
        have h3 : (List.getD ([] : List (List Nat)) 0 []).length = 0 := rfl
        omega
      | cons d ds' => exact ⟨d, ds', rfl⟩
    have h1 := hpos 0 le_rfl
    have h2 := hfull 0 le_rfl
    rw [List.getD_cons_zero] at h1
    rw [List.getD_cons_zero, List.getD_cons_zero] at h2
    rw [List.getD_cons_zero, List.getD_cons_zero] at hfail
    have hne : ¬ c.length = 0 := by omega
    have hcmp : c ≠ (overwrite dbuf d).take c.length := by
      rw [overwrite, List.take_append_of_le_length h2]
      exact hfail
    have hout : verifyLoop fd ((c :: cs').map REv.chunk) ((d :: ds').map REv.chunk)
        dbuf done = (.error .verificationFailed, done, [Ev.readSrc, Ev.readDest]) := by
      cases fd <;> simp [verifyLoop, hne, hcmp]
    rw [hout]
    exact ⟨rfl, by simp, rfl, rfl⟩
  | succ i ih =>
    obtain ⟨c, cs', rfl⟩ : ∃ c cs', cs = c :: cs' := by
      cases cs with
      | nil => exfalso; have := hpos 0 (by omega); simp at this
      | cons c cs' => exact ⟨c, cs', rfl⟩
    obtain ⟨d, ds', rfl⟩ : ∃ d ds', ds = d :: ds' := by
      cases ds with
      | nil =>
        exfalso
        have h1 := hpos 0 (by omega)
        have h2 := hfull 0 (by omega)
        rw [List.getD_cons_zero] at h1 h2
        have h3 : (List.getD ([] : List (List Nat)) 0 []).length = 0 := rfl
        omega
      | cons d ds' => exact ⟨d, ds', rfl⟩
    have h1 := hpos 0 (by omega)
    have h2 := hfull 0 (by omega)
    have hm0 := hmatch 0 (by omega)
    rw [List.getD_cons_zero] at h1
    rw [List.getD_cons_zero, List.getD_cons_zero] at h2
    rw [List.getD_cons_zero, List.getD_cons_zero] at hm0
    have hne : ¬ c.length = 0 := by omega
    have hcmp : ¬ c ≠ (overwrite dbuf d).take c.length := by
      rw [overwrite, List.take_append_of_le_length h2, not_not]
      exact hm0
    have hrec := ih cs' ds' (overwrite dbuf d) (done + c.length)
      (fun j hj => by
        have := hpos (j + 1) (by omega)
        rwa [List.getD_cons_succ] at this)
      (fun j hj => by
        have := hfull (j + 1) (by omega)
        rwa [List.getD_cons_succ, List.getD_cons_succ] at this)
      (fun j hj => by
        have := hmatch (j + 1) (by omega)
        rwa [List.getD_cons_succ, List.getD_cons_succ] at this)
      (by rwa [List.getD_cons_succ, List.getD_cons_succ] at hfail)
    have hout : verifyLoop fd ((c :: cs').map REv.chunk) ((d :: ds').map REv.chunk)
        dbuf done
        = ((verifyLoop fd (cs'.map REv.chunk) (ds'.map REv.chunk) (overwrite dbuf d)
              (done + c.length)).1,
           (verifyLoop fd (cs'.map REv.chunk) (ds'.map REv.chunk) (overwrite dbuf d)
              (done + c.length)).2.1,
           Ev.readSrc :: Ev.readDest :: Ev.updDone c.length
             :: (verifyLoop fd (cs'.map REv.chunk) (ds'.map REv.chunk) (overwrite dbuf d)
                  (done + c.length)).2.2) := by
      cases fd <;> simp [verifyLoop, hne, hcmp]
    rw [hout]
    have e1 : (if (Ev.readSrc = Ev.readSrc) then 1 else 0) = 1 := by simp
    have e2 : (if (Ev.readDest = Ev.readSrc) then 1 else 0) = 0 := by simp
    have e3 : (if (Ev.updDone c.length = Ev.readSrc) then 1 else 0) = 0 := by simp
    have f1 : (if (Ev.readSrc = Ev.readDest) then 1 else 0) = 0 := by simp
    have f2 : (if (Ev.readDest = Ev.readDest) then 1 else 0) = 1 := by simp
    have f3 : (if (Ev.updDone c.length = Ev.readDest) then 1 else 0) = 0 := by simp
    refine ⟨hrec.1, ?_, ?_, ?_⟩
    · rw [hrec.2.1, List.take_succ_cons, List.map_cons, List.sum_cons]
      omega
    · rw [countReadSrc_cons, countReadSrc_cons, countReadSrc_cons, e1, e2, e3,
        hrec.2.2.1]
      omega
    · rw [countReadDest_cons, countReadDest_cons, countReadDest_cons, f1, f2, f3,
        hrec.2.2.2]
      omega

/-! ## Claim C1: verify fails fast on the first mismatching block -/

/-- C1: whenever a compared block differs within the actually-read
length, `verify` returns the distinct "Verification failed" error
immediately — it issues exactly the `i + 1` reads on each side needed
to reach the failing block — and `progress.done` equals the total bytes
of the fully matching blocks before the failing one (the failing
block's bytes are not added); `finished` is left untouched. -/
theorem verify_mismatch_aborts (fd : Bool) (cs ds : List (List Nat)) (i : Nat)
    (dbuf0 : List Nat) (elapsed : Nat) (p0 : Progress)
    (hpos : ∀ j, j ≤ i → 0 < (cs.getD j []).length)
    (hfull : ∀ j, j ≤ i → (cs.getD j []).length ≤ (ds.getD j []).length)
    (hmatch : ∀ j, j < i → cs.getD j [] = (ds.getD j []).take (cs.getD j []).length)
    (hfail : cs.getD i [] ≠ (ds.getD i []).take (cs.getD i []).length) :
    (verify okEnv fd (cs.map REv.chunk) (ds.map REv.chunk) dbuf0 elapsed p0).1
        = .error .verificationFailed
    ∧ (verify okEnv fd (cs.map REv.chunk) (ds.map REv.chunk) dbuf0 elapsed p0).2.1.done
        = p0.done + ((cs.take i).map List.length).sum
    ∧ (verify okEnv fd (cs.map REv.chunk) (ds.map REv.chunk) dbuf0 elapsed
        p0).2.1.finished = p0.finished
    ∧ countReadSrc (verify okEnv fd (cs.map REv.chunk) (ds.map REv.chunk) dbuf0
        elapsed p0).2.2 = i + 1
    ∧ countReadDest (verify okEnv fd (cs.map REv.chunk) (ds.map REv.chunk) dbuf0
        elapsed p0).2.2 = i + 1 := by
  have h := verifyLoop_first_mismatch fd cs ds i dbuf0 0 hpos hfull hmatch hfail
  unfold verify okEnv
  simp only
  split
  · rename_i e heq
    rw [h.1] at heq
    injection heq with heq2
    subst heq2
    refine ⟨rfl, by simp [h.2.1], rfl, ?_, ?_⟩
    · rw [countReadSrc_append, h.2.2.1]
      simp [countReadSrc]
    · rw [countReadDest_append, h.2.2.2]
      simp [countReadDest]
  · rename_i u heq
    rw [h.1] at heq
    exact absurd heq (by simp)

/-- Witness for C1: source blocks `[1,2],[3,4]`, destination blocks
`[1,2],[3,5]` — the second block differs, `done` stops at 2 bytes. -/
theorem verify_mismatch_aborts_witness :
    (verify okEnv false [REv.chunk [1, 2], REv.chunk [3, 4]]
        [REv.chunk [1, 2], REv.chunk [3, 5]] [] 9 ⟨4, 0, 0, false⟩).1
        = .error .verificationFailed
    ∧ (verify okEnv false [REv.chunk [1, 2], REv.chunk [3, 4]]
        [REv.chunk [1, 2], REv.chunk [3, 5]] [] 9 ⟨4, 0, 0, false⟩).2.1.done = 0 + 2
    ∧ countReadSrc (verify okEnv false [REv.chunk [1, 2], REv.chunk [3, 4]]
        [REv.chunk [1, 2], REv.chunk [3, 5]] [] 9 ⟨4, 0, 0, false⟩).2.2 = 2 := by
  have h := verify_mismatch_aborts false [[1, 2], [3, 4]] [[1, 2], [3, 5]] 1 [] 9
    ⟨4, 0, 0, false⟩ (by decide) (by decide) (by decide) (by decide)
  exact ⟨h.1, h.2.1, h.2.2.2.1⟩

theorem doneAdds_cons (e : Ev) (tr : List Ev) :
    doneAdds (e :: tr)
      = (match e with | Ev.updDone n => [n] | _ => []) ++ doneAdds tr := by
  cases e <;> simp [doneAdds, List.filterMap_cons]

/-- The copy loop only ever adds positive byte counts to `done`, and its
returned accumulator is the initial value plus the sum of the recorded
additions. -/
theorem copyLoop_doneAdds (fd ua : Bool) (evs : List REv) (wEvs : List (Option Nat))
    (aEvs : List Int) (done : Nat) :
    (∀ n ∈ doneAdds (copyLoop fd ua evs wEvs aEvs done).2.2, 0 < n)
    ∧ (copyLoop fd ua evs wEvs aEvs done).2.1
        = done + (doneAdds (copyLoop fd ua evs wEvs aEvs done).2.2).sum := by
  induction evs generalizing wEvs aEvs done with
  | nil => simp [copyLoop, doneAdds]
  | cons ev rest ih =>
    cases ev with
    | rerr c => cases fd <;> simp [copyLoop, doneAdds]
    | chunk d =>
      by_cases hd : d.length = 0
      · simp [copyLoop, hd, doneAdds]
      · cases ua with
        | true =>
          have hrec := ih wEvs aEvs.tail (done + d.length)
          have hout : copyLoop fd true (REv.chunk d :: rest) wEvs aEvs done
              = ((copyLoop fd true rest wEvs aEvs.tail (done + d.length)).1,
                 (copyLoop fd true rest wEvs aEvs.tail (done + d.length)).2.1,
                 Ev.readSrc :: Ev.writeArch d.length :: Ev.updDone d.length
                   :: (copyLoop fd true rest wEvs aEvs.tail (done + d.length)).2.2) := by
            simp [copyLoop, hd]
          rw [hout]
          simp only [doneAdds_cons, List.nil_append, List.singleton_append]
          constructor
          · intro n hn
            rcases List.mem_cons.mp hn with rfl | hn2
            · omega
            · exact hrec.1 n hn2
          · rw [List.sum_cons]
            omega
        | false =>
          cases hw : wEvs.head?.getD none with
          | some c =>
            have hout : copyLoop fd false (REv.chunk d :: rest) wEvs aEvs done
                = (.error (.os c), done, [Ev.readSrc, Ev.writeDest d.length]) := by
              simp [copyLoop, hd, hw]
            rw [hout]
            simp [doneAdds]
          | none =>
            have hrec := ih wEvs.tail aEvs (done + d.length)
            have hout : copyLoop fd false (REv.chunk d :: rest) wEvs aEvs done
                = ((copyLoop fd false rest wEvs.tail aEvs (done + d.length)).1,
                   (copyLoop fd false rest wEvs.tail aEvs (done + d.length)).2.1,
                   Ev.readSrc :: Ev.writeDest d.length :: Ev.updDone d.length
                     :: (copyLoop fd false rest wEvs.tail aEvs (done + d.length)).2.2) := by
              simp [copyLoop, hd, hw]
            rw [hout]
            simp only [doneAdds_cons, List.nil_append, List.singleton_append]
            constructor
            · intro n hn
              rcases List.mem_cons.mp hn with rfl | hn2
              · omega
              · exact hrec.1 n hn2
            · rw [List.sum_cons]
              omega

/-- The verify loop only ever adds positive byte counts to `done`, and
its returned accumulator is the initial value plus the sum of the
recorded additions. -/
theorem verifyLoop_doneAdds (fd : Bool) (evs destEvs : List REv) (dbuf : List Nat)
    (done : Nat) :
    (∀ n ∈ doneAdds (verifyLoop fd evs destEvs dbuf done).2.2, 0 < n)
    ∧ (verifyLoop fd evs destEvs dbuf done).2.1
        = done + (doneAdds (verifyLoop fd evs destEvs dbuf done).2.2).sum := by
  induction evs generalizing destEvs dbuf done with
  | nil => simp [verifyLoop, doneAdds]
  | cons ev rest ih =>
    cases ev with
    | rerr c => cases fd <;> simp [verifyLoop, doneAdds]
    | chunk s =>
      by_cases hs : s.length = 0
      · simp [verifyLoop, hs, doneAdds]
      · have hstep : ∀ dbuf2 : List Nat,
            ¬ s ≠ dbuf2.take s.length →
            (∀ n ∈ doneAdds (Ev.readSrc :: Ev.readDest :: Ev.updDone s.length
                :: (verifyLoop fd rest destEvs.tail dbuf2 (done + s.length)).2.2), 0 < n)
            ∧ (verifyLoop fd rest destEvs.tail dbuf2 (done + s.length)).2.1
                = done + (doneAdds (Ev.readSrc :: Ev.readDest :: Ev.updDone s.length
                    :: (verifyLoop fd rest destEvs.tail dbuf2
                        (done + s.length)).2.2)).sum := by
          intro dbuf2 hmm
          have hrec := ih destEvs.tail dbuf2 (done + s.length)
          simp only [doneAdds_cons, List.nil_append, List.singleton_append]
          constructor
          · intro n hn
            rcases List.mem_cons.mp hn with rfl | hn2
            · omega
            · exact hrec.1 n hn2
          · rw [List.sum_cons]
            omega
        cases fd with
        | false =>
          cases hde : destEvs.head?.getD (REv.chunk []) with
          | rerr c =>
            have hout : verifyLoop false (REv.chunk s :: rest) destEvs dbuf done
                = (.error (.os c), done, [Ev.readSrc, Ev.readDest]) := by
              simp [verifyLoop, hs, hde]
            rw [hout]
            simp [doneAdds]
          | chunk d =>
            by_cases hc : s ≠ (overwrite dbuf d).take s.length
            · have hout : verifyLoop false (REv.chunk s :: rest) destEvs dbuf done
                  = (.error .verificationFailed, done, [Ev.readSrc, Ev.readDest]) := by
                simp [verifyLoop, hs, hde, hc]
              rw [hout]
              simp [doneAdds]
            · have hout : verifyLoop false (REv.chunk s :: rest) destEvs dbuf done
                  = ((verifyLoop false rest destEvs.tail (overwrite dbuf d)
                        (done + s.length)).1,
                     (verifyLoop false rest destEvs.tail (overwrite dbuf d)
                        (done + s.length)).2.1,
                     Ev.readSrc :: Ev.readDest :: Ev.updDone s.length
                       :: (verifyLoop false rest destEvs.tail (overwrite dbuf d)
                            (done + s.length)).2.2) := by
                simp [verifyLoop, hs, hde, hc]
              rw [hout]
              exact hstep (overwrite dbuf d) hc
        | true =>
          cases hde : destEvs.head?.getD (REv.chunk []) with
          | rerr c =>
            by_cases hc : s ≠ dbuf.take s.length
            · have hout : verifyLoop true (REv.chunk s :: rest) destEvs dbuf done
                  = (.error .verificationFailed, done, [Ev.readSrc, Ev.readDest]) := by
                simp [verifyLoop, hs, hde, hc]
              rw [hout]
              simp [doneAdds]
            · have hout : verifyLoop true (REv.chunk s :: rest) destEvs dbuf done
                  = ((verifyLoop true rest destEvs.tail dbuf (done + s.length)).1,
                     (verifyLoop true rest destEvs.tail dbuf (done + s.length)).2.1,
                     Ev.readSrc :: Ev.readDest :: Ev.updDone s.length
                       :: (verifyLoop true rest destEvs.tail dbuf
                            (done + s.length)).2.2) := by
                simp [verifyLoop, hs, hde, hc]
              rw [hout]
              exact hstep dbuf hc
          | chunk d =>
            by_cases hc : s ≠ (overwrite dbuf d).take s.length
            · have hout : verifyLoop true (REv.chunk s :: rest) destEvs dbuf done
                  = (.error .verificationFailed, done, [Ev.readSrc, Ev.readDest]) := by
                simp [verifyLoop, hs, hde, hc]
              rw [hout]
              simp [doneAdds]
            · have hout : verifyLoop true (REv.chunk s :: rest) destEvs dbuf done
                  = ((verifyLoop true rest destEvs.tail (overwrite dbuf d)
                        (done + s.length)).1,
                     (verifyLoop true rest destEvs.tail (overwrite dbuf d)
                        (done + s.length)).2.1,
                     Ev.readSrc :: Ev.readDest :: Ev.updDone s.length
                       :: (verifyLoop true rest destEvs.tail (overwrite dbuf d)
                            (done + s.length)).2.2) := by
                simp [verifyLoop, hs, hde, hc]
              rw [hout]
              exact hstep (overwrite dbuf d) hc

/-- A copy loop fed a source of non-empty chunks with all writes
succeeding completes successfully, recording exactly the chunk lengths
as progress additions. -/
theorem copyLoop_all_chunks (fd ua : Bool) (cs : List (List Nat))
    (h : ∀ c ∈ cs, c ≠ []) (aEvs : List Int) (done : Nat) :
    (copyLoop fd ua (cs.map REv.chunk) [] aEvs done).1 = .ok ()
    ∧ doneAdds (copyLoop fd ua (cs.map REv.chunk) [] aEvs done).2.2
        = cs.map List.length := by
  induction cs generalizing aEvs done with
  | nil => simp [copyLoop, doneAdds]
  | cons c cs ih =>
    have hc : ¬ c.length = 0 := by
      have := h c (List.mem_cons_self c cs)
      simpa [List.length_eq_zero] using this
    have htail : ∀ x ∈ cs, x ≠ [] := fun x hx => h x (List.mem_cons_of_mem c hx)
    cases ua with
    | true =>
      have hrec := ih htail aEvs.tail (done + c.length)
      have hout : copyLoop fd true ((c :: cs).map REv.chunk) [] aEvs done
          = ((copyLoop fd true (cs.map REv.chunk) [] aEvs.tail (done + c.length)).1,
             (copyLoop fd true (cs.map REv.chunk) [] aEvs.tail (done + c.length)).2.1,
             Ev.readSrc :: Ev.writeArch c.length :: Ev.updDone c.length
               :: (copyLoop fd true (cs.map REv.chunk) [] aEvs.tail
                    (done + c.length)).2.2) := by
        simp [copyLoop, hc]
      rw [hout]
      simp only [doneAdds_cons, List.nil_append, List.singleton_append]
      exact ⟨hrec.1, by rw [hrec.2]; simp⟩
    | false =>
      have hrec := ih htail aEvs (done + c.length)
      have hout : copyLoop fd false ((c :: cs).map REv.chunk) [] aEvs done
          = ((copyLoop fd false (cs.map REv.chunk) [] aEvs (done + c.length)).1,
             (copyLoop fd false (cs.map REv.chunk) [] aEvs (done + c.length)).2.1,
             Ev.readSrc :: Ev.writeDest c.length :: Ev.updDone c.length
               :: (copyLoop fd false (cs.map REv.chunk) [] aEvs
                    (done + c.length)).2.2) := by
        simp [copyLoop, hc]
      rw [hout]
      simp only [doneAdds_cons, List.nil_append, List.singleton_append]
      exact ⟨hrec.1, by rw [hrec.2]; simp⟩

/-- A verify loop comparing a stream of non-empty chunks against an
identical destination stream completes successfully, recording exactly
the chunk lengths as progress additions. -/
theorem verifyLoop_self_chunks (fd : Bool) (cs : List (List Nat))
    (h : ∀ c ∈ cs, c ≠ []) (dbuf : List Nat) (done : Nat) :
    (verifyLoop fd (cs.map REv.chunk) (cs.map REv.chunk) dbuf done).1 = .ok ()
    ∧ doneAdds (verifyLoop fd (cs.map REv.chunk) (cs.map REv.chunk) dbuf done).2.2
        = cs.map List.length := by
  induction cs generalizing dbuf done with
  | nil => simp [verifyLoop, doneAdds]
  | cons c cs ih =>
    have hc : ¬ c.length = 0 := by
      have := h c (List.mem_cons_self c cs)
      simpa [List.length_eq_zero] using this
    have htail : ∀ x ∈ cs, x ≠ [] := fun x hx => h x (List.mem_cons_of_mem c hx)
    have hcmp : ¬ c ≠ (overwrite dbuf c).take c.length := by
      rw [overwrite, not_not, List.take_left]
    have hrec := ih htail (overwrite dbuf c) (done + c.length)
    have hout : verifyLoop fd ((c :: cs).map REv.chunk) ((c :: cs).map REv.chunk)
        dbuf done
        = ((verifyLoop fd (cs.map REv.chunk) (cs.map REv.chunk) (overwrite dbuf c)
              (done + c.length)).1,
           (verifyLoop fd (cs.map REv.chunk) (cs.map REv.chunk) (overwrite dbuf c)
              (done + c.length)).2.1,
           Ev.readSrc :: Ev.readDest :: Ev.updDone c.length
             :: (verifyLoop fd (cs.map REv.chunk) (cs.map REv.chunk)
                  (overwrite dbuf c) (done + c.length)).2.2) := by
      cases fd <;> simp [verifyLoop, hc, hcmp]
    rw [hout]
    simp only [doneAdds_cons, List.nil_append, List.singleton_append]
    exact ⟨hrec.1, by rw [hrec.2]; simp⟩

/-- The running sums of a list of additions form a non-decreasing chain. -/
theorem chain_scanl_add (i : Nat) (l : List Nat) :
    List.Chain' (· ≤ ·) (l.scanl (· + ·) i) := by
  induction l generalizing i with
  | nil => simp
  | cons a l ih =>
    rw [List.scanl_cons, List.singleton_append]
    rw [List.chain'_cons']
    refine ⟨fun b hb => ?_, ih (i + a)⟩
    have hhead : (List.scanl (· + ·) (i + a) l).head? = some (i + a) := by
      cases l <;> simp [List.scanl_cons, List.scanl_nil]
    rw [hhead] at hb
    simp at hb
    omega

/-- The last running sum equals the initial value plus the total. -/
theorem scanl_add_getLastD (l : List Nat) (i d : Nat) :
    (l.scanl (· + ·) i).getLastD d = i + l.sum := by
  induction l generalizing i d with
  | nil => simp
  | cons a l ih =>
    rw [List.scanl_cons, List.singleton_append, List.getLastD_cons, ih]
    simp
    omega

/-- All `done` additions a whole `copy` call records are positive. -/
theorem copy_doneAdds_pos (srcSize destSize : Option Nat) (fd mo : Bool)
    (env : OpenEnv) (srcEvs : List REv) (wEvs : List (Option Nat))
    (aEvs : List Int) (elapsed : Nat) (p0 : Progress) :
    ∀ n ∈ doneAdds (copy srcSize destSize fd mo env srcEvs wEvs aEvs elapsed
        p0).2.2, 0 < n := by
  rcases env with ⟨se, de, ae⟩
  unfold copy
  split
  · simp [doneAdds]
  · cases se with
    | some c => simp [doneAdds]
    | none =>
      cases de with
      | some c => simp [doneAdds]
      | none =>
        cases ae with
        | some e => cases fd <;> simp [doneAdds]
        | none =>
          simp only
          cases fd with
          | false =>
            split <;>
            · intro n hn
              have hn3 : n ∈ doneAdds (copyLoop false false srcEvs wEvs aEvs 0).2.2 := by
                simpa [doneAdds_append, doneAdds, List.filterMap_cons] using hn
              exact (copyLoop_doneAdds false false srcEvs wEvs aEvs 0).1 n hn3
          | true =>
            split <;>
            · intro n hn
              have hn3 : n ∈ doneAdds (copyLoop true (!mo) srcEvs wEvs aEvs 0).2.2 := by
                simpa [doneAdds_append, doneAdds, List.filterMap_cons] using hn
              exact (copyLoop_doneAdds true (!mo) srcEvs wEvs aEvs 0).1 n hn3

/-- All `done` additions a whole `verify` call records are positive. -/
theorem verify_doneAdds_pos (env : OpenEnv) (fd : Bool) (srcEvs destEvs : List REv)
    (dbuf0 : List Nat) (elapsed : Nat) (p0 : Progress) :
    ∀ n ∈ doneAdds (verify env fd srcEvs destEvs dbuf0 elapsed p0).2.2, 0 < n := by
  rcases env with ⟨se, de, ae⟩
  unfold verify
  cases se with
  | some c => simp [doneAdds]
  | none =>
    cases de with
    | some c => simp [doneAdds]
    | none =>
      cases ae with
      | some e => simp [doneAdds]
      | none =>
        simp only
        split <;>
        · intro n hn
          have hn3 : n ∈ doneAdds (verifyLoop fd srcEvs destEvs dbuf0 0).2.2 := by
            simpa [doneAdds_append, doneAdds, List.filterMap_cons] using hn
          exact (verifyLoop_doneAdds fd srcEvs destEvs dbuf0 0).1 n hn3

theorem scanl_add_head (l : List Nat) (i : Nat) :
    (l.scanl (· + ·) i).head? = some i := by
  cases l <;> simp [List.scanl_cons, List.scanl_nil]

/-- A copy of a source that delivers non-empty chunks and then
end-of-stream, with every write succeeding, returns success, ends with
`done` increased by the total chunk bytes, and records exactly the
chunk lengths as progress additions. -/
theorem copy_full_run (fd mo : Bool) (cs : List (List Nat)) (h : ∀ c ∈ cs, c ≠ [])
    (aEvs : List Int) (elapsed : Nat) (p0 : Progress) :
    (copy none none fd mo okEnv (cs.map REv.chunk) [] aEvs elapsed p0).1 = .ok ()
    ∧ (copy none none fd mo okEnv (cs.map REv.chunk) [] aEvs elapsed p0).2.1.done
        = p0.done + (cs.map List.length).sum
    ∧ doneAdds (copy none none fd mo okEnv (cs.map REv.chunk) [] aEvs elapsed
        p0).2.2 = cs.map List.length := by
  have hl := copyLoop_all_chunks fd (fd && !mo) cs h aEvs 0
  have hd := copyLoop_doneAdds fd (fd && !mo) (cs.map REv.chunk) [] aEvs 0
  have hsum : (copyLoop fd (fd && !mo) (cs.map REv.chunk) [] aEvs 0).2.1
      = (cs.map List.length).sum := by
    rw [hd.2, hl.2]
    omega
  unfold copy okEnv
  split
  · rename_i heq
    simp at heq
  · simp only
    split
    · rename_i e heq
      rw [hl.1] at heq
      exact absurd heq (by simp)
    · refine ⟨rfl, by simp [hsum], ?_⟩
      cases fd <;>
      · simp only [doneAdds_append]
        rw [hl.2]
        simp [doneAdds, List.filterMap_cons]

/-- A verify pass over identical non-empty source and destination chunk
streams returns success, ends with `done` increased by the total bytes,
and records exactly the chunk lengths as progress additions. -/
theorem verify_full_run (fd : Bool) (cs : List (List Nat)) (h : ∀ c ∈ cs, c ≠ [])
    (dbuf0 : List Nat) (elapsed : Nat) (p0 : Progress) :
    (verify okEnv fd (cs.map REv.chunk) (cs.map REv.chunk) dbuf0 elapsed p0).1
        = .ok ()
    ∧ (verify okEnv fd (cs.map REv.chunk) (cs.map REv.chunk) dbuf0 elapsed
        p0).2.1.done = p0.done + (cs.map List.length).sum
    ∧ doneAdds (verify okEnv fd (cs.map REv.chunk) (cs.map REv.chunk) dbuf0 elapsed
        p0).2.2 = cs.map List.length := by
  have hl := verifyLoop_self_chunks fd cs h dbuf0 0
  have hd := verifyLoop_doneAdds fd (cs.map REv.chunk) (cs.map REv.chunk) dbuf0 0
  have hsum : (verifyLoop fd (cs.map REv.chunk) (cs.map REv.chunk) dbuf0 0).2.1
      = (cs.map List.length).sum := by
    rw [hd.2, hl.2]
    omega
  unfold verify okEnv
  simp only
  split
  · rename_i e heq
    rw [hl.1] at heq
    exact absurd heq (by simp)
  · rename_i u heq
    refine ⟨rfl, by simp [hsum], ?_⟩
    simp only [doneAdds_append]
    rw [hl.2]
    simp [doneAdds, List.filterMap_cons]

/-! ## Claim C8: progress is monotone and reaches the total -/

/-- C8: every `progress.done` update of `copy` and `verify` adds a
strictly positive count, the observable sequence of `done` values is
monotonically non-decreasing, and a successful transfer (or
verification) of an `N`-byte source starting from `done = 0` produces a
`done` sequence that starts at 0 and ends at exactly `N`. -/
theorem done_monotone
    (srcSize destSize : Option Nat) (fd mo fd2 fd3 mo3 fd4 : Bool)
    (env env2 : OpenEnv) (srcEvs srcEvs2 destEvs2 : List REv)
    (wEvs : List (Option Nat)) (aEvs aEvs3 : List Int) (dbuf0 dbuf4 : List Nat)
    (e1 e2 e3 e4 : Nat) (p0 q0 r0 s0 : Progress) (cs ds : List (List Nat))
    (hcs : ∀ c ∈ cs, c ≠ []) (hds : ∀ c ∈ ds, c ≠ [])
    (hr0 : r0.done = 0) (hs0 : s0.done = 0) :
    (∀ n ∈ doneAdds (copy srcSize destSize fd mo env srcEvs wEvs aEvs e1 p0).2.2,
        0 < n)
    ∧ (∀ n ∈ doneAdds (verify env2 fd2 srcEvs2 destEvs2 dbuf0 e2 q0).2.2, 0 < n)
    ∧ List.Chain' (· ≤ ·)
        (doneSeq p0.done (copy srcSize destSize fd mo env srcEvs wEvs aEvs e1 p0).2.2)
    ∧ List.Chain' (· ≤ ·)
        (doneSeq q0.done (verify env2 fd2 srcEvs2 destEvs2 dbuf0 e2 q0).2.2)
    ∧ ((copy none none fd3 mo3 okEnv (cs.map REv.chunk) [] aEvs3 e3 r0).1 = .ok ()
        ∧ (copy none none fd3 mo3 okEnv (cs.map REv.chunk) [] aEvs3 e3 r0).2.1.done
            = (cs.map List.length).sum
        ∧ (doneSeq r0.done (copy none none fd3 mo3 okEnv (cs.map REv.chunk) []
              aEvs3 e3 r0).2.2).head? = some 0
        ∧ (doneSeq r0.done (copy none none fd3 mo3 okEnv (cs.map REv.chunk) []
              aEvs3 e3 r0).2.2).getLastD 0 = (cs.map List.length).sum)
    ∧ ((verify okEnv fd4 (ds.map REv.chunk) (ds.map REv.chunk) dbuf4 e4 s0).1
          = .ok ()
        ∧ (verify okEnv fd4 (ds.map REv.chunk) (ds.map REv.chunk) dbuf4 e4
              s0).2.1.done = (ds.map List.length).sum
        ∧ (doneSeq s0.done (verify okEnv fd4 (ds.map REv.chunk) (ds.map REv.chunk)
              dbuf4 e4 s0).2.2).head? = some 0
        ∧ (doneSeq s0.done (verify okEnv fd4 (ds.map REv.chunk) (ds.map REv.chunk)
              dbuf4 e4 s0).2.2).getLastD 0 = (ds.map List.length).sum) := by
  have hc := copy_full_run fd3 mo3 cs hcs aEvs3 e3 r0
  have hv := verify_full_run fd4 ds hds dbuf4 e4 s0
  refine ⟨copy_doneAdds_pos srcSize destSize fd mo env srcEvs wEvs aEvs e1 p0,
    verify_doneAdds_pos env2 fd2 srcEvs2 destEvs2 dbuf0 e2 q0,
    chain_scanl_add _ _, chain_scanl_add _ _,
    ⟨hc.1, by rw [hc.2.1, hr0]; omega, ?_, ?_⟩,
    ⟨hv.1, by rw [hv.2.1, hs0]; omega, ?_, ?_⟩⟩
  · rw [doneSeq, scanl_add_head, hr0]
  · rw [doneSeq, hc.2.2, scanl_add_getLastD, hr0]
    omega
  · rw [doneSeq, scanl_add_head, hs0]
  · rw [doneSeq, hv.2.2, scanl_add_getLastD, hs0]
    omega

/-- Witness for C8 at a concrete 3-byte transfer split into two blocks. -/
theorem done_monotone_witness :
    (copy none none false true okEnv (List.map REv.chunk [[1, 2], [3]]) [] [] 0
        ⟨3, 0, 0, false⟩).1 = .ok ()
    ∧ (copy none none false true okEnv (List.map REv.chunk [[1, 2], [3]]) [] [] 0
        ⟨3, 0, 0, false⟩).2.1.done = (List.map List.length [[1, 2], [3]]).sum
    ∧ (verify okEnv false (List.map REv.chunk [[4]]) (List.map REv.chunk [[4]]) []
        0 ⟨1, 0, 0, false⟩).1 = .ok () := by
  have h := done_monotone none none false true false false true false okEnv okEnv
    [] [] [] [] [] [] [] [] 0 0 0 0 ⟨0, 0, 0, false⟩ ⟨0, 0, 0, false⟩
    ⟨3, 0, 0, false⟩ ⟨1, 0, 0, false⟩ [[1, 2], [3]] [[4]]
    (by decide) (by decide) rfl rfl
  exact ⟨h.2.2.2.2.1.1, h.2.2.2.2.1.2.1, h.2.2.2.2.2.1⟩

theorem humanizeGo_step (s f i k : Nat) (h : 1024 ≤ s) :
    humanizeGo s f i (k + 1) = humanizeGo (s / 1024) (s % 1024) (i + 1) k := by
  simp only [humanizeGo]
  rw [if_pos h]

theorem humanizeGo_stop (s f i k : Nat) (h : s < 1024) :
    humanizeGo s f i k = (s, f, i) := by
  cases k with
  | zero => rfl
  | succ k =>
    simp only [humanizeGo]
    rw [if_neg (by omega)]


/-! ## Claim C4: the byte-size formatter -/

/-- C4: for every `u64` byte count `n`, `humanize` selects the unit
index `i` with `1024 ^ i ≤ n < 1024 ^ (i + 1)` (index 0 for `n = 0`;
the cap at index 7, "ZiB", can never bind for 64-bit inputs, whose
index never exceeds 6); index 0 renders the bare integer followed by
`" bytes"`, and every index `i ≥ 1` renders, with exactly one decimal
digit, the value `integer_part + remainder_of_last_division / 1024`,
i.e. `(n / 1024 ^ (i - 1)) / 1024`; the four examples of the spec
evaluate as stated. -/
theorem humanize_spec :
    (∀ n : Nat, n < 2 ^ 64 →
      (humanizeGo n 0 0 7).2.2 ≤ 7
      ∧ (1 ≤ n → 1024 ^ (humanizeGo n 0 0 7).2.2 ≤ n)
      ∧ n < 1024 ^ ((humanizeGo n 0 0 7).2.2 + 1)
      ∧ ((humanizeGo n 0 0 7).2.2 = 0 → humanize n = toString n ++ " bytes")
      ∧ (1 ≤ (humanizeGo n 0 0 7).2.2 →
          humanize n = fmtOneDec (n / 1024 ^ ((humanizeGo n 0 0 7).2.2 - 1))
            ++ " " ++ sfx.getD (humanizeGo n 0 0 7).2.2 ""))
    ∧ humanize 0 = "0 bytes"
    ∧ humanize 1024 = "1.0 KiB"
    ∧ humanize 1536 = "1.5 KiB"
    ∧ humanize 1073741824 = "1.0 GiB" := by
  refine ⟨?_, rfl, rfl, rfl, rfl⟩
  intro n hn
  have hn64 : n < 18446744073709551616 := by
    have hp : (2 : Nat) ^ 64 = 18446744073709551616 := by norm_num
    omega
  rcases Nat.lt_or_ge n 1024 with h1 | h1
  · have hgo : humanizeGo n 0 0 7 = (n, 0, 0) := humanizeGo_stop _ _ _ _ h1
    have hh : humanize n = toString n ++ " bytes" := by
      simp only [humanize, show sfx.length - 1 = 7 from rfl, hgo]
      rfl
    rw [hgo]
    refine ⟨by norm_num, fun hn1 => ?_, ?_, fun _ => hh, fun habs => by simp at habs⟩
    · show (1024 : Nat) ^ 0 ≤ n
      rw [pow_zero]
      omega
    · show n < (1024 : Nat) ^ 1
      rw [pow_one]
      omega
  rcases Nat.lt_or_ge n 1048576 with h2 | h2
  · have hgo : humanizeGo n 0 0 7 = (n / 1024, n % 1024, 1) := by
      rw [humanizeGo_step n 0 0 6 (by omega)]
      exact humanizeGo_stop _ _ _ _ (by omega)
    have hh : humanize n = fmtOneDec (n / 1024 * 1024 + n % 1024) ++ " " ++ sfx.getD 1 "" := by
      simp only [humanize, show sfx.length - 1 = 7 from rfl, hgo]
      rfl
    rw [hgo]
    refine ⟨by norm_num, fun _ => ?_, ?_, fun h0 => by simp at h0, fun _ => ?_⟩
    · show (1024 : Nat) ^ 1 ≤ n
      have hp : (1024 : Nat) ^ 1 = 1024 := by norm_num
      omega
    · show n < (1024 : Nat) ^ 2
      have hp : (1024 : Nat) ^ 2 = 1048576 := by norm_num
      omega
    · rw [hh]
      show fmtOneDec (n / 1024 * 1024 + n % 1024) ++ " " ++ sfx.getD 1 ""
          = fmtOneDec (n / 1024 ^ 0) ++ " " ++ sfx.getD 1 ""
      have harg : n / 1024 * 1024 + n % 1024 = n / 1024 ^ 0 := by
        rw [pow_zero, Nat.div_one]
        omega
      rw [harg]
  rcases Nat.lt_or_ge n 1073741824 with h3 | h3
  · have hgo : humanizeGo n 0 0 7 = (n / 1024 / 1024, n / 1024 % 1024, 2) := by
      rw [humanizeGo_step n 0 0 6 (by omega)]
      rw [humanizeGo_step _ _ _ 5 (by omega)]
      exact humanizeGo_stop _ _ _ _ (by omega)
    have hh : humanize n = fmtOneDec (n / 1024 / 1024 * 1024 + n / 1024 % 1024) ++ " " ++ sfx.getD 2 "" := by
      simp only [humanize, show sfx.length - 1 = 7 from rfl, hgo]
      rfl
    rw [hgo]
    refine ⟨by norm_num, fun _ => ?_, ?_, fun h0 => by simp at h0, fun _ => ?_⟩
    · show (1024 : Nat) ^ 2 ≤ n
      have hp : (1024 : Nat) ^ 2 = 1048576 := by norm_num
      omega
    · show n < (1024 : Nat) ^ 3
      have hp : (1024 : Nat) ^ 3 = 1073741824 := by norm_num
      omega
    · rw [hh]
      show fmtOneDec (n / 1024 / 1024 * 1024 + n / 1024 % 1024) ++ " " ++ sfx.getD 2 ""
          = fmtOneDec (n / 1024 ^ 1) ++ " " ++ sfx.getD 2 ""
      have harg : n / 1024 / 1024 * 1024 + n / 1024 % 1024 = n / 1024 ^ 1 := by
        rw [pow_one]
        omega
      rw [harg]
  rcases Nat.lt_or_ge n 1099511627776 with h4 | h4
  · have hgo : humanizeGo n 0 0 7 = (n / 1024 / 1024 / 1024, n / 1024 / 1024 % 1024, 3) := by
      rw [humanizeGo_step n 0 0 6 (by omega)]
      rw [humanizeGo_step _ _ _ 5 (by omega)]
      rw [humanizeGo_step _ _ _ 4 (by omega)]
      exact humanizeGo_stop _ _ _ _ (by omega)
    have hh : humanize n = fmtOneDec (n / 1024 / 1024 / 1024 * 1024 + n / 1024 / 1024 % 1024) ++ " " ++ sfx.getD 3 "" := by
      simp only [humanize, show sfx.length - 1 = 7 from rfl, hgo]
      rfl
    rw [hgo]
    refine ⟨by norm_num, fun _ => ?_, ?_, fun h0 => by simp at h0, fun _ => ?_⟩
    · show (1024 : Nat) ^ 3 ≤ n
      have hp : (1024 : Nat) ^ 3 = 1073741824 := by norm_num
      omega
    · show n < (1024 : Nat) ^ 4
      have hp : (1024 : Nat) ^ 4 = 1099511627776 := by norm_num
      omega
    · rw [hh]
      show fmtOneDec (n / 1024 / 1024 / 1024 * 1024 + n / 1024 / 1024 % 1024) ++ " " ++ sfx.getD 3 ""
          = fmtOneDec (n / 1024 ^ 2) ++ " " ++ sfx.getD 3 ""
      have harg : n / 1024 / 1024 / 1024 * 1024 + n / 1024 / 1024 % 1024 = n / 1024 ^ 2 := by
        rw [show (1024 : Nat) ^ 2 = 1024 * 1024 from by norm_num]
        rw [← Nat.div_div_eq_div_mul]
        omega
      rw [harg]
  rcases Nat.lt_or_ge n 1125899906842624 with h5 | h5
  · have hgo : humanizeGo n 0 0 7 = (n / 1024 / 1024 / 1024 / 1024, n / 1024 / 1024 / 1024 % 1024, 4) := by
      rw [humanizeGo_step n 0 0 6 (by omega)]
      rw [humanizeGo_step _ _ _ 5 (by omega)]
      rw [humanizeGo_step _ _ _ 4 (by omega)]
      rw [humanizeGo_step _ _ _ 3 (by omega)]
      exact humanizeGo_stop _ _ _ _ (by omega)
    have hh : humanize n = fmtOneDec (n / 1024 / 1024 / 1024 / 1024 * 1024 + n / 1024 / 1024 / 1024 % 1024) ++ " " ++ sfx.getD 4 "" := by
      simp only [humanize, show sfx.length - 1 = 7 from rfl, hgo]
      rfl
    rw [hgo]
    refine ⟨by norm_num, fun _ => ?_, ?_, fun h0 => by simp at h0, fun _ => ?_⟩
    · show (1024 : Nat) ^ 4 ≤ n
      have hp : (1024 : Nat) ^ 4 = 1099511627776 := by norm_num
      omega
    · show n < (1024 : Nat) ^ 5
      have hp : (1024 : Nat) ^ 5 = 1125899906842624 := by norm_num
      omega
    · rw [hh]
      show fmtOneDec (n / 1024 / 1024 / 1024 / 1024 * 1024 + n / 1024 / 1024 / 1024 % 1024) ++ " " ++ sfx.getD 4 ""
          = fmtOneDec (n / 1024 ^ 3) ++ " " ++ sfx.getD 4 ""
      have harg : n / 1024 / 1024 / 1024 / 1024 * 1024 + n / 1024 / 1024 / 1024 % 1024 = n / 1024 ^ 3 := by
        rw [show (1024 : Nat) ^ 3 = 1024 * 1024 * 1024 from by norm_num]
        rw [← Nat.div_div_eq_div_mul, ← Nat.div_div_eq_div_mul]
        omega
      rw [harg]
  rcases Nat.lt_or_ge n 1152921504606846976 with h6 | h6
  · have hgo : humanizeGo n 0 0 7 = (n / 1024 / 1024 / 1024 / 1024 / 1024, n / 1024 / 1024 / 1024 / 1024 % 1024, 5) := by
      rw [humanizeGo_step n 0 0 6 (by omega)]
      rw [humanizeGo_step _ _ _ 5 (by omega)]
      rw [humanizeGo_step _ _ _ 4 (by omega)]
      rw [humanizeGo_step _ _ _ 3 (by omega)]
      rw [humanizeGo_step _ _ _ 2 (by omega)]
      exact humanizeGo_stop _ _ _ _ (by omega)
    have hh : humanize n = fmtOneDec (n / 1024 / 1024 / 1024 / 1024 / 1024 * 1024 + n / 1024 / 1024 / 1024 / 1024 % 1024) ++ " " ++ sfx.getD 5 "" := by
      simp only [humanize, show sfx.length - 1 = 7 from rfl, hgo]
      rfl
    rw [hgo]
    refine ⟨by norm_num, fun _ => ?_, ?_, fun h0 => by simp at h0, fun _ => ?_⟩
    · show (1024 : Nat) ^ 5 ≤ n
      have hp : (1024 : Nat) ^ 5 = 1125899906842624 := by norm_num
      omega
    · show n < (1024 : Nat) ^ 6
      have hp : (1024 : Nat) ^ 6 = 1152921504606846976 := by norm_num
      omega
    · rw [hh]
      show fmtOneDec (n / 1024 / 1024 / 1024 / 1024 / 1024 * 1024 + n / 1024 / 1024 / 1024 / 1024 % 1024) ++ " " ++ sfx.getD 5 ""
          = fmtOneDec (n / 1024 ^ 4) ++ " " ++ sfx.getD 5 ""
      have harg : n / 1024 / 1024 / 1024 / 1024 / 1024 * 1024 + n / 1024 / 1024 / 1024 / 1024 % 1024 = n / 1024 ^ 4 := by
        rw [show (1024 : Nat) ^ 4 = 1024 * 1024 * 1024 * 1024 from by norm_num]
        rw [← Nat.div_div_eq_div_mul, ← Nat.div_div_eq_div_mul, ← Nat.div_div_eq_div_mul]
        omega
      rw [harg]
  have hgo : humanizeGo n 0 0 7 = (n / 1024 / 1024 / 1024 / 1024 / 1024 / 1024, n / 1024 / 1024 / 1024 / 1024 / 1024 % 1024, 6) := by
    rw [humanizeGo_step n 0 0 6 (by omega)]
    rw [humanizeGo_step _ _ _ 5 (by omega)]
    rw [humanizeGo_step _ _ _ 4 (by omega)]
    rw [humanizeGo_step _ _ _ 3 (by omega)]
    rw [humanizeGo_step _ _ _ 2 (by omega)]
    rw [humanizeGo_step _ _ _ 1 (by omega)]
    exact humanizeGo_stop _ _ _ _ (by omega)
  have hh : humanize n = fmtOneDec (n / 1024 / 1024 / 1024 / 1024 / 1024 / 1024 * 1024 + n / 1024 / 1024 / 1024 / 1024 / 1024 % 1024) ++ " " ++ sfx.getD 6 "" := by
    simp only [humanize, show sfx.length - 1 = 7 from rfl, hgo]
    rfl
  rw [hgo]
  refine ⟨by norm_num, fun _ => ?_, ?_, fun h0 => by simp at h0, fun _ => ?_⟩
  · show (1024 : Nat) ^ 6 ≤ n
    have hp : (1024 : Nat) ^ 6 = 1152921504606846976 := by norm_num
    omega
  · show n < (1024 : Nat) ^ 7
    have hp : (1024 : Nat) ^ 7 = 1180591620717411303424 := by norm_num
    omega
  · rw [hh]
    show fmtOneDec (n / 1024 / 1024 / 1024 / 1024 / 1024 / 1024 * 1024 + n / 1024 / 1024 / 1024 / 1024 / 1024 % 1024) ++ " " ++ sfx.getD 6 ""
        = fmtOneDec (n / 1024 ^ 5) ++ " " ++ sfx.getD 6 ""
    have harg : n / 1024 / 1024 / 1024 / 1024 / 1024 / 1024 * 1024 + n / 1024 / 1024 / 1024 / 1024 / 1024 % 1024 = n / 1024 ^ 5 := by
      rw [show (1024 : Nat) ^ 5 = 1024 * 1024 * 1024 * 1024 * 1024 from by norm_num]
      rw [← Nat.div_div_eq_div_mul, ← Nat.div_div_eq_div_mul, ← Nat.div_div_eq_div_mul, ← Nat.div_div_eq_div_mul]
      omega
    rw [harg]

/-- Witness for C4 at `n = 1536`: index 1 is selected with
`1024 ^ 1 ≤ 1536 < 1024 ^ 2`, and the rendering matches. -/
theorem humanize_spec_witness :
    1024 ^ (humanizeGo 1536 0 0 7).2.2 ≤ 1536
    ∧ 1536 < 1024 ^ ((humanizeGo 1536 0 0 7).2.2 + 1)
    ∧ humanize 1536 = "1.5 KiB" :=
  ⟨(humanize_spec.1 1536 (by norm_num)).2.1 (by norm_num),
   (humanize_spec.1 1536 (by norm_num)).2.2.1,
   humanize_spec.2.2.2.1⟩

end Imge
